import Mathlib

set_option maxHeartbeats 1000000

/- Shallow embedding of the three numerical kernels of
   src/accelerating_python.ipynb: the numba random walk (step_numba,
   walk_numba), the Mandelbrot escape-time grids (mandelbrot_python,
   mandelbrot_cython) and the trial-division prime generator (primes).
   Python/numpy floats are modelled by exact rationals, numpy complex
   numbers by pairs of rationals (real part, imaginary part), the random
   source random.random() > .5 by a stream of booleans, and the in-place
   mutation of a numpy grid m by a function of the two indices that is
   returned updated. -/

/-- Complex addition on pairs of rationals (real part, imaginary part). -/
def cadd (z w : ℚ × ℚ) : ℚ × ℚ := (z.1 + w.1, z.2 + w.2)

/-- Complex multiplication on pairs of rationals. -/
def cmul (z w : ℚ × ℚ) : ℚ × ℚ := (z.1 * w.1 - z.2 * w.2, z.1 * w.2 + z.2 * w.1)

/-- Cell parameter of the Mandelbrot grids: the source computes, for row i and
column j, c = -2 + 3./size*j + 1j*(1.5 - 3./size*i). -/
def cGrid (size i j : ℕ) : ℚ × ℚ :=
  (-2 + 3 / (size : ℚ) * j, 1.5 - 3 / (size : ℚ) * i)

/-- Escape test of mandelbrot_python: np.abs(z) <= 10, where np.abs of a complex
number is the real square root of re^2 + im^2. -/
def pyCheck (z : ℚ × ℚ) : Prop :=
  Real.sqrt ((z.1 : ℝ) ^ 2 + (z.2 : ℝ) ^ 2) ≤ 10

noncomputable instance pyCheckDec : DecidablePred pyCheck :=
  fun z => Classical.propDecidable (pyCheck z)

/-- Escape test of the typed cython kernel: z.real**2 + z.imag**2 <= 100. -/
def cyCheck (z : ℚ × ℚ) : Prop := z.1 ^ 2 + z.2 ^ 2 ≤ 100

instance cyCheckDec : DecidablePred cyCheck :=
  fun z => inferInstanceAs (Decidable (z.1 ^ 2 + z.2 ^ 2 ≤ 100))

/-- Pointwise update of a grid at entry (i, j), modelling the write m[i, j] = v. -/
def updateGrid {α : Type} (m : ℕ → ℕ → α) (i j : ℕ) (v : α) : ℕ → ℕ → α :=
  fun a b => if a = i ∧ b = j then v else m a b

/-- Effect of the escape loop on the grid, summarised: no recorded index leaves
the grid unchanged, a recorded index v writes val v at (i, j). -/
def applyRec {α : Type} (m : ℕ → ℕ → α) (i j : ℕ) (val : ℕ → α) :
    Option ℕ → ℕ → ℕ → α
  | none => m
  | some v => updateGrid m i j (val v)

/-- Inner escape-time loop for one cell of the Mandelbrot grids:
for n in range(iterations): if check(z): z = z*z + c; m[i, j] = n; else break.
The first numeric argument is the number of remaining iterations (structural
fuel, initially the full budget), the second is the current index n.  val casts
the written index into the grid value type (float grid or int grid). -/
def mandelLoop {α : Type} (check : ℚ × ℚ → Prop) [DecidablePred check]
    (val : ℕ → α) (c : ℚ × ℚ) (i j : ℕ) :
    ℕ → ℕ → ℚ × ℚ → (ℕ → ℕ → α) → ℕ → ℕ → α
  | 0, _, _, m => m
  | r + 1, n, z, m =>
    if check z then
      mandelLoop check val c i j r (n + 1) (cadd (cmul z z) c)
        (updateGrid m i j (val n))
    else m

/-- Shared shape of the two Mandelbrot functions, which differ only in the
escape test and in the value type of the grid: nested loops over rows i and
columns j of a size-by-size block, each cell running the escape loop on
c = cGrid size i j with z = 0 and n = 0. -/
def mandelGrid {α : Type} (check : ℚ × ℚ → Prop) [DecidablePred check]
    (val : ℕ → α) (m : ℕ → ℕ → α) (size iterations : ℕ) : ℕ → ℕ → α :=
  (List.range size).foldl
    (fun mi i =>
      (List.range size).foldl
        (fun mj j =>
          mandelLoop check val (cGrid size i j) i j iterations 0 (0, 0) mj)
        mi)
    m

/-- mandelbrot_python(m, size, iterations): the loops above with the
np.abs(z) <= 10 test, writing float iteration indices into m in place.  The
mutated grid is the value returned here. -/
noncomputable def mandelbrot_python (m : ℕ → ℕ → ℚ) (size iterations : ℕ) :
    ℕ → ℕ → ℚ :=
  mandelGrid pyCheck (fun n => (n : ℚ)) m size iterations

/-- mandelbrot_cython(m, size, iterations), the typed memoryview version: the
same loops with the squared test z.real**2 + z.imag**2 <= 100, writing C ints.
The indices written satisfy n < iterations < 2^31 (iterations is itself an
int), so no overflow is possible and int is modelled as ℤ. -/
def mandelbrot_cython (m : ℕ → ℕ → ℤ) (size iterations : ℕ) : ℕ → ℕ → ℤ :=
  mandelGrid cyCheck (fun n => (n : ℤ)) m size iterations

/-- Orbit z_0 = 0, z_{t+1} = z_t * z_t + c of the Mandelbrot recurrence. -/
def orbit (c : ℚ × ℚ) : ℕ → ℚ × ℚ
  | 0 => (0, 0)
  | t + 1 => cadd (cmul (orbit c t) (orbit c t)) c

/-- Last iteration index recorded in a cell by the escape loop (none = the cell
was never written); same recursion as mandelLoop with the grid abstracted away. -/
def cellVal (check : ℚ × ℚ → Prop) [DecidablePred check] (c : ℚ × ℚ) :
    ℕ → ℕ → ℚ × ℚ → Option ℕ → Option ℕ
  | 0, _, _, cur => cur
  | r + 1, n, z, cur =>
    if check z then cellVal check c r (n + 1) (cadd (cmul z z) c) (some n)
    else cur

/-- Value recorded by a full run of the escape loop on parameter c with
iteration budget K. -/
def escVal (check : ℚ × ℚ → Prop) [DecidablePred check] (c : ℚ × ℚ) (K : ℕ) :
    Option ℕ :=
  cellVal check c K 0 (0, 0) none

/-- step_numba(): 1. if random.random() > .5 else -1.; the random draw
random.random() > .5 is modelled by the boolean argument. -/
def step_numba (b : Bool) : ℚ := if b then 1 else -1

/-- Position x[i] of walk_numba(n): x[0] = 0 (np.zeros) and the loop body at
index i computes x_new = x[i] + dx * step_numba() with dx = 1./n, then writes
x[i+1] = 0. if x_new > 5e-3 else x_new.  coin i models the i-th random draw.
For n = 0 the source (numba nopython mode) computes dx = 1./0 = inf without
raising, and dx is never used since the loop body does not run; here 1/0 = 0,
equally unused. -/
def walkPos (n : ℕ) (coin : ℕ → Bool) : ℕ → ℚ
  | 0 => 0
  | i + 1 =>
    let x_new := walkPos n coin i + 1 / (n : ℚ) * step_numba (coin i)
    if x_new > 5e-3 then 0 else x_new

/-- walk_numba(n): the returned array [x[0], ..., x[n-1]]; the loop
for i in range(n - 1) writes exactly the entries x[1], ..., x[n-1]. -/
def walk_numba (n : ℕ) (coin : ℕ → Bool) : List ℚ :=
  (List.range n).map (walkPos n coin)

/-- Inner while loop of primes: while i < k and n % p[i] != 0: i = i + 1,
traversing the remaining tail of p while incrementing i; returns the final i. -/
def divisorSearchAux (n k : ℕ) : List ℕ → ℕ → ℕ
  | [], i => i
  | q :: rest, i =>
    if i < k ∧ n % q ≠ 0 then divisorSearchAux n k rest (i + 1) else i

/-- The inner while loop of primes started at i = 0 on the whole list p. -/
def divisorSearch (p : List ℕ) (n k : ℕ) : ℕ := divisorSearchAux n k p 0

/-- Outer while loop of primes: while k < kmax, test candidate n by trial
division against the found primes p; on success append n to both p and result.
fuel bounds the number of candidates examined (the while loop of the source has
no such bound; the fuel passed by primes is proved sufficient via Bertrand's
postulate, so the bound is never the reason the loop stops). -/
def primesLoop (kmax : ℕ) : ℕ → List ℕ → List ℕ → ℕ → ℕ → List ℕ
  | fuel, p, result, k, n =>
    if k < kmax then
      match fuel with
      | 0 => result
      | fuel' + 1 =>
        if divisorSearch p n k = k then
          primesLoop kmax fuel' (p ++ [n]) (result ++ [n]) (k + 1) (n + 1)
        else primesLoop kmax fuel' p result k (n + 1)
    else result

/-- primes(kmax): p = []; result = []; if kmax > 1000: kmax = 1000; k = 0;
n = 2; then the while loop above; returns result.  kmax is an arbitrary
integer; for the ℕ counter k, the source condition k < kmax over ℤ holds iff
k < kmax.toNat (both are false for every k when kmax < 0), so the capped bound
is passed as a ℕ. -/
def primes (kmax : ℤ) : List ℕ :=
  let km := if 1000 < kmax then 1000 else kmax
  primesLoop km.toNat (2 ^ (km.toNat + 1)) [] [] 0 2

/-- Number of primes in the interval [a, b). -/
def primeCount (a b : ℕ) : ℕ := ((Finset.Ico a b).filter Nat.Prime).card

/-- Invariant of the outer loop of primes: result mirrors p, p holds exactly
the primes below the next candidate n in increasing order, and k counts them. -/
def goodState (p result : List ℕ) (k n : ℕ) : Prop :=
  result = p ∧ p.length = k ∧ p.Sorted (· < ·) ∧ 2 ≤ n ∧
    ∀ m, m ∈ p ↔ Nat.Prime m ∧ m < n

/-- The list r is the increasing sequence of the first K primes: right length,
strictly sorted, all entries prime, and downward closed among the primes. -/
def firstPrimes (K : ℕ) (r : List ℕ) : Prop :=
  r.length = K ∧ r.Sorted (· < ·) ∧ (∀ x ∈ r, Nat.Prime x) ∧
    ∀ q x, Nat.Prime q → x ∈ r → q < x → q ∈ r

/-- Reading entry i < n of the walk gives the i-th position. -/
theorem walk_numba_getD {n : ℕ} (coin : ℕ → Bool) {i : ℕ} (h : i < n) :
    (walk_numba n coin).getD i 0 = walkPos n coin i := by
  unfold walk_numba
  rw [List.getD_eq_getElem?_getD, List.getElem?_map, List.getElem?_range h]
  rfl

/-- Pointwise bounds on the walk positions: every position stays at least
-i/n and at most the reset threshold 5e-3. -/
theorem walkPos_bounds (n : ℕ) (coin : ℕ → Bool) (hn : 1 ≤ n) :
    ∀ i : ℕ, -(i:ℚ) / n ≤ walkPos n coin i ∧ walkPos n coin i ≤ 5e-3 := by
  have hnpos : (0:ℚ) < n := by exact_mod_cast hn
  intro i
  induction i with
  | zero => constructor <;> norm_num [walkPos]
  | succ i ih =>
    simp only [walkPos]
    by_cases hc : walkPos n coin i + 1 / (n:ℚ) * step_numba (coin i) > 5e-3
    · rw [if_pos hc]
      constructor
      · push_cast
        rw [neg_div]
        exact neg_nonpos.2 (by positivity)
      · norm_num
    · rw [if_neg hc]
      push_neg at hc
      constructor
      · have hs : -(1:ℚ) ≤ step_numba (coin i) := by
          cases coin i <;> norm_num [step_numba]
        have h1n : (0:ℚ) < 1 / (n:ℚ) := by positivity
        have hstep : -(1 / (n:ℚ)) ≤ 1 / (n:ℚ) * step_numba (coin i) := by nlinarith
        have hsplit : -((i:ℚ) + 1) / (n:ℚ) = -(i:ℚ) / (n:ℚ) - 1 / (n:ℚ) := by ring
        push_cast
        linarith [ih.1]
      · exact hc

/-- Characterisation of the inner while loop: started at index i on the tail L
of p with i + L.length = k, it reaches k exactly when no element of L divides n. -/
theorem divisorSearchAux_spec (n k : ℕ) :
    ∀ (L : List ℕ) (i : ℕ), i + L.length = k →
      (divisorSearchAux n k L i = k ↔ ∀ m ∈ L, n % m ≠ 0) := by
  intro L
  induction L with
  | nil =>
    intro i hi
    simp only [List.length_nil, Nat.add_zero] at hi
    simp [divisorSearchAux, hi]
  | cons q rest ih =>
    intro i hi
    simp only [List.length_cons] at hi
    have hik : i < k := by omega
    by_cases hq : n % q ≠ 0
    · rw [divisorSearchAux, if_pos ⟨hik, hq⟩, ih (i + 1) (by omega)]
      simp [hq]
    · rw [divisorSearchAux, if_neg (by tauto)]
      push_neg at hq
      constructor
      · intro h; omega
      · intro h; exact absurd hq (h q (List.mem_cons_self q rest))

theorem divisorSearch_eq_iff (p : List ℕ) (n : ℕ) :
    divisorSearch p n p.length = p.length ↔ ∀ m ∈ p, n % m ≠ 0 :=
  divisorSearchAux_spec n p.length p 0 (by simp)

/-- Trial division against the complete list of primes below n decides
primality of n. -/
theorem prime_iff_no_divisor {p : List ℕ} {n : ℕ} (h2 : 2 ≤ n)
    (hmem : ∀ m, m ∈ p ↔ Nat.Prime m ∧ m < n) :
    Nat.Prime n ↔ ∀ m ∈ p, n % m ≠ 0 := by
  constructor
  · intro hn m hm hmod
    obtain ⟨hmp, hmlt⟩ := (hmem m).1 hm
    have hdvd : m ∣ n := Nat.dvd_of_mod_eq_zero hmod
    rcases Nat.Prime.eq_one_or_self_of_dvd hn m hdvd with h1 | h1
    · exact absurd h1 (Nat.Prime.one_lt hmp).ne'
    · omega
  · intro hno
    by_contra hnp
    have hp := Nat.minFac_prime (show n ≠ 1 by omega)
    have hdvd := Nat.minFac_dvd n
    have hlt : n.minFac < n := by
      have hle : n.minFac ≤ n := Nat.le_of_dvd (by omega) hdvd
      rcases lt_or_eq_of_le hle with h | h
      · exact h
      · exact absurd (Nat.prime_def_minFac.2 ⟨h2, h⟩) hnp
    have hmem' : n.minFac ∈ p := (hmem _).2 ⟨hp, hlt⟩
    exact hno _ hmem' (Nat.mod_eq_zero_of_dvd hdvd)

theorem goodState_firstPrimes {p result : List ℕ} {k n : ℕ}
    (hg : goodState p result k n) : firstPrimes k result := by
  obtain ⟨hres, hlen, hsort, h2, hmem⟩ := hg
  subst hres
  refine ⟨hlen, hsort, ?_, ?_⟩
  · intro x hx; exact ((hmem x).1 hx).1
  · intro q x hq hx hlt
    have hxn : x < n := ((hmem x).1 hx).2
    exact (hmem q).2 ⟨hq, by omega⟩

theorem goodState_append {p result : List ℕ} {k n : ℕ}
    (hg : goodState p result k n) (hpr : Nat.Prime n) :
    goodState (p ++ [n]) (result ++ [n]) (k + 1) (n + 1) := by
  obtain ⟨hres, hlen, hsort, h2, hmem⟩ := hg
  subst hres
  refine ⟨rfl, by simp [hlen], ?_, by omega, ?_⟩
  · rw [List.Sorted, List.pairwise_append]
    refine ⟨hsort, List.pairwise_singleton _ _, ?_⟩
    intro a ha b hb
    simp only [List.mem_singleton] at hb
    subst hb
    exact ((hmem a).1 ha).2
  · intro m
    simp only [List.mem_append, List.mem_singleton]
    rw [hmem m]
    constructor
    · rintro (⟨hp, hlt⟩ | rfl)
      · exact ⟨hp, by omega⟩
      · exact ⟨hpr, by omega⟩
    · rintro ⟨hp, hlt⟩
      by_cases hmn : m = n
      · right; exact hmn
      · left; exact ⟨hp, by omega⟩

theorem goodState_skip {p result : List ℕ} {k n : ℕ}
    (hg : goodState p result k n) (hpr : ¬ Nat.Prime n) :
    goodState p result k (n + 1) := by
  obtain ⟨hres, hlen, hsort, h2, hmem⟩ := hg
  refine ⟨hres, hlen, hsort, by omega, ?_⟩
  intro m
  rw [hmem m]
  constructor
  · rintro ⟨hp, hlt⟩; exact ⟨hp, by omega⟩
  · rintro ⟨hp, hlt⟩
    refine ⟨hp, ?_⟩
    rcases Nat.lt_succ_iff_lt_or_eq.1 hlt with h | h
    · exact h
    · subst h; exact absurd hp hpr

theorem primeCount_split {a b c : ℕ} (hab : a ≤ b) (hbc : b ≤ c) :
    primeCount a c = primeCount a b + primeCount b c := by
  unfold primeCount
  rw [← Finset.Ico_union_Ico_eq_Ico hab hbc, Finset.filter_union,
    Finset.card_union_of_disjoint
      (Finset.disjoint_filter_filter (Finset.Ico_disjoint_Ico_consecutive a b c))]

theorem primeCount_succ_left (n : ℕ) :
    primeCount n (n + 1) = if Nat.Prime n then 1 else 0 := by
  unfold primeCount
  rw [Nat.Ico_succ_singleton, Finset.filter_singleton]
  split <;> simp

theorem primeCount_mono (a : ℕ) {b c : ℕ} (h : b ≤ c) :
    primeCount a b ≤ primeCount a c :=
  Finset.card_le_card
    (Finset.filter_subset_filter _ (Finset.Ico_subset_Ico le_rfl h))

/-- Bertrand's postulate iterated: there are at least K primes below 2^(K+1)+1. -/
theorem primeCount_two_pow (K : ℕ) : K ≤ primeCount 2 (2 ^ (K + 1) + 1) := by
  induction K with
  | zero => exact Nat.zero_le _
  | succ K ih =>
    have hpow : (2:ℕ) ≤ 2 ^ (K + 1) := by
      have h21 : (2:ℕ) ^ 1 ≤ 2 ^ (K + 1) := Nat.pow_le_pow_right (by norm_num) (by omega)
      simpa using h21
    have h1 : (2:ℕ) ≤ 2 ^ (K + 1) + 1 := by omega
    have hpow2 : (2:ℕ) ^ (K + 1) ≤ 2 ^ (K + 2) :=
      Nat.pow_le_pow_right (by norm_num) (by omega)
    show K + 1 ≤ primeCount 2 (2 ^ (K + 2) + 1)
    rw [primeCount_split h1 (by omega)]
    obtain ⟨p, hp, hlt, hle⟩ :=
      Nat.exists_prime_lt_and_le_two_mul (2 ^ (K + 1)) (by positivity)
    have hmul : 2 * 2 ^ (K + 1) = 2 ^ (K + 2) := by ring
    have hmem : p ∈ (Finset.Ico (2 ^ (K + 1) + 1) (2 ^ (K + 2) + 1)).filter Nat.Prime := by
      rw [Finset.mem_filter, Finset.mem_Ico]
      exact ⟨⟨by omega, by omega⟩, hp⟩
    have hpos : 0 < primeCount (2 ^ (K + 1) + 1) (2 ^ (K + 2) + 1) :=
      Finset.card_pos.2 ⟨p, hmem⟩
    omega

/-- Main invariant argument for the outer loop of primes: from a good state,
with enough primes among the next fuel candidates, the loop returns the first
km primes. -/
theorem primesLoop_spec :
    ∀ (fuel : ℕ) (p result : List ℕ) (k n km : ℕ),
      goodState p result k n → k ≤ km → km ≤ k + primeCount n (n + fuel) →
      firstPrimes km (primesLoop km fuel p result k n) := by
  intro fuel
  induction fuel with
  | zero =>
    intro p result k n km hg hk hcount
    have hc0 : primeCount n (n + 0) = 0 := by
      unfold primeCount; simp
    rw [hc0] at hcount
    have hkm : k = km := by omega
    rw [primesLoop, if_neg (by omega)]
    exact hkm ▸ goodState_firstPrimes hg
  | succ fuel ih =>
    intro p result k n km hg hk hcount
    by_cases hkkm : k < km
    · have h2 : 2 ≤ n := hg.2.2.2.1
      have hlen : p.length = k := hg.2.1
      have hmem := hg.2.2.2.2
      have hsplit : primeCount n (n + (fuel + 1)) =
          primeCount n (n + 1) + primeCount (n + 1) (n + 1 + fuel) := by
        have := primeCount_split (show n ≤ n + 1 by omega)
          (show n + 1 ≤ n + 1 + fuel by omega)
        have harr : n + (fuel + 1) = n + 1 + fuel := by omega
        rw [harr]; exact this
      rw [primesLoop, if_pos hkkm]
      by_cases hpr : Nat.Prime n
      · have hds : divisorSearch p n k = k := by
          rw [← hlen]
          exact (divisorSearch_eq_iff p n).2
            ((prime_iff_no_divisor h2 hmem).1 hpr)

        rw [if_pos hds]
        apply ih _ _ _ _ _ (goodState_append hg hpr) (by omega)
        rw [hsplit, primeCount_succ_left, if_pos hpr] at hcount
        omega
      · have hds : ¬ divisorSearch p n k = k := by
          rw [← hlen]
          intro h
          exact hpr ((prime_iff_no_divisor h2 hmem).2 ((divisorSearch_eq_iff p n).1 h))
        rw [if_neg hds]
        apply ih _ _ _ _ _ (goodState_skip hg hpr) (by omega)
        rw [hsplit, primeCount_succ_left, if_neg hpr] at hcount
        omega
    · rw [primesLoop, if_neg hkkm]
      have hkm : k = km := by omega
      exact hkm ▸ goodState_firstPrimes hg

theorem primesLoop_firstPrimes (KM : ℕ) :
    firstPrimes KM (primesLoop KM (2 ^ (KM + 1)) [] [] 0 2) := by
  apply primesLoop_spec
  · refine ⟨rfl, rfl, List.sorted_nil, le_rfl, ?_⟩
    intro m
    simp only [List.not_mem_nil, false_iff]
    rintro ⟨hp, hlt⟩
    exact absurd hlt (not_lt.2 hp.two_le)
  · exact Nat.zero_le _
  · have h1 := primeCount_two_pow KM
    have h2 : primeCount 2 (2 ^ (KM + 1) + 1) ≤ primeCount 2 (2 + 2 ^ (KM + 1)) :=
      primeCount_mono 2 (by omega)
    omega

theorem primes_eq_core (kmax : ℤ) :
    primes kmax =
      primesLoop (min kmax 1000).toNat (2 ^ ((min kmax 1000).toNat + 1)) [] [] 0 2 := by
  have h : (if 1000 < kmax then (1000:ℤ) else kmax).toNat = (min kmax 1000).toNat := by
    split <;> omega
  show primesLoop (if 1000 < kmax then (1000:ℤ) else kmax).toNat
      (2 ^ ((if 1000 < kmax then (1000:ℤ) else kmax).toNat + 1)) [] [] 0 2 = _
  rw [h]

theorem primes_firstPrimes (kmax : ℤ) :
    firstPrimes (min kmax 1000).toNat (primes kmax) := by
  rw [primes_eq_core]
  exact primesLoop_firstPrimes _

/-- C1: for every integer kmax with 0 ≤ kmax ≤ 1000, primes kmax is the
ordered sequence of the first kmax primes starting from 2: it has length kmax,
is strictly increasing, every element is prime, every prime below an element of
the result occurs in it, kmax ≤ 0 yields the empty list, and in particular
primes 5 = [2, 3, 5, 7, 11]. -/
theorem primes_first_kmax (kmax : ℤ) (h0 : 0 ≤ kmax) (h1 : kmax ≤ 1000) :
    (primes kmax).length = kmax.toNat ∧
    (primes kmax).Sorted (· < ·) ∧
    (∀ x ∈ primes kmax, Nat.Prime x) ∧
    (∀ q x, Nat.Prime q → x ∈ primes kmax → q < x → q ∈ primes kmax) ∧
    (kmax ≤ 0 → primes kmax = []) ∧
    (kmax = 5 → primes kmax = [2, 3, 5, 7, 11]) := by
  have hmin : min kmax 1000 = kmax := by omega
  have hfp := primes_firstPrimes kmax
  rw [hmin] at hfp
  obtain ⟨hlen, hsort, hprime, hdc⟩ := hfp
  refine ⟨hlen, hsort, hprime, hdc, ?_, ?_⟩
  · intro hle
    have hz : kmax = 0 := le_antisymm hle h0
    subst hz
    exact List.length_eq_zero.1 (by simpa using hlen)
  · rintro rfl
    decide

/-- Witness for primes_first_kmax at kmax = 5. -/
theorem primes_first_kmax_witness :
    (0 ≤ (5:ℤ)) ∧ ((5:ℤ) ≤ 1000) ∧
      ((primes 5).length = (5:ℤ).toNat ∧
       (primes 5).Sorted (· < ·) ∧
       (∀ x ∈ primes 5, Nat.Prime x) ∧
       (∀ q x, Nat.Prime q → x ∈ primes 5 → q < x → q ∈ primes 5) ∧
       ((5:ℤ) ≤ 0 → primes 5 = []) ∧
       ((5:ℤ) = 5 → primes 5 = [2, 3, 5, 7, 11])) :=
  ⟨by decide, by decide, primes_first_kmax 5 (by decide) (by decide)⟩

/-- C7: primes caps oversized inputs at 1000 instead of erring: for every
kmax > 1000 the output equals the output for 1000 and its length is exactly
1000; the function is total on ℤ. -/
theorem primes_cap (kmax : ℤ) (h : 1000 < kmax) :
    primes kmax = primes 1000 ∧ (primes kmax).length = 1000 := by
  have he : primes kmax = primes 1000 := by
    rw [primes_eq_core kmax, primes_eq_core 1000]
    have h1 : min kmax 1000 = 1000 := by omega
    have h2 : min (1000:ℤ) 1000 = 1000 := by omega
    rw [h1, h2]
  refine ⟨he, ?_⟩
  have hlen := (primes_firstPrimes kmax).1
  have hm : (min kmax 1000).toNat = 1000 := by omega
  rw [hm] at hlen
  exact hlen

/-- Witness for primes_cap at kmax = 2000. -/
theorem primes_cap_witness :
    (1000 : ℤ) < 2000 ∧ (primes 2000 = primes 1000 ∧ (primes 2000).length = 1000) :=
  ⟨by decide, primes_cap 2000 (by decide)⟩

/-- C10: primes terminates on every integer input; the loop reaches
k = min(kmax, 1000) (immediately exiting when kmax ≤ 0), so the result has
exactly that many entries. -/
theorem primes_terminates (kmax : ℤ) :
    (primes kmax).length = (min kmax 1000).toNat ∧ (kmax ≤ 0 → primes kmax = []) := by
  refine ⟨(primes_firstPrimes kmax).1, ?_⟩
  intro h
  apply List.length_eq_zero.1
  rw [(primes_firstPrimes kmax).1]
  omega

/-- C4: for n ≥ 1 the walk has exactly n entries, starts at 0, and each
successive entry is the previous one plus or minus the step 1/n, except that a
candidate exceeding the threshold 5e-3 is replaced by 0. -/
theorem walk_step_structure (n : ℕ) (coin : ℕ → Bool) (h : 1 ≤ n) :
    (walk_numba n coin).length = n ∧
    (walk_numba n coin).getD 0 0 = 0 ∧
    ∀ i, i + 1 < n →
      if (walk_numba n coin).getD i 0 + 1 / (n:ℚ) * step_numba (coin i) > 5e-3 then
        (walk_numba n coin).getD (i + 1) 0 = 0
      else
        (walk_numba n coin).getD (i + 1) 0 = (walk_numba n coin).getD i 0 + 1 / (n:ℚ) ∨
        (walk_numba n coin).getD (i + 1) 0 = (walk_numba n coin).getD i 0 - 1 / (n:ℚ) := by
  refine ⟨by simp [walk_numba], ?_, ?_⟩
  · rw [walk_numba_getD coin (by omega)]
    rfl
  · intro i hi
    rw [walk_numba_getD coin (by omega), walk_numba_getD coin (by omega)]
    by_cases hc : walkPos n coin i + 1 / (n:ℚ) * step_numba (coin i) > 5e-3
    · rw [if_pos hc]
      simp only [walkPos]
      rw [if_pos hc]
    · rw [if_neg hc]
      have hval : walkPos n coin (i + 1) =
          walkPos n coin i + 1 / (n:ℚ) * step_numba (coin i) := by
        simp only [walkPos]
        rw [if_neg hc]
      cases hb : coin i with
      | true =>
        left
        rw [hval, hb]
        simp [step_numba]
      | false =>
        right
        rw [hval, hb]
        simp only [step_numba, Bool.false_eq_true, if_false]
        ring

/-- Witness for walk_step_structure at n = 2 with all draws true. -/
theorem walk_step_structure_witness :
    1 ≤ 2 ∧
      ((walk_numba 2 (fun _ => true)).length = 2 ∧
       (walk_numba 2 (fun _ => true)).getD 0 0 = 0 ∧
       ∀ i, i + 1 < 2 →
         if (walk_numba 2 (fun _ => true)).getD i 0 +
             1 / ((2:ℕ):ℚ) * step_numba ((fun _ => true) i) > 5e-3 then
           (walk_numba 2 (fun _ => true)).getD (i + 1) 0 = 0
         else
           (walk_numba 2 (fun _ => true)).getD (i + 1) 0 =
             (walk_numba 2 (fun _ => true)).getD i 0 + 1 / ((2:ℕ):ℚ) ∨
           (walk_numba 2 (fun _ => true)).getD (i + 1) 0 =
             (walk_numba 2 (fun _ => true)).getD i 0 - 1 / ((2:ℕ):ℚ)) :=
  ⟨by decide, walk_step_structure 2 (fun _ => true) (by decide)⟩

/-- C5: the walk generator has no error conditions in the degenerate cases:
n = 0 yields the empty sequence and n = 1 the single-element sequence [0];
neither touches the step size dx = 1/n (which numba computes as inf for
n = 0 without raising). -/
theorem walk_degenerate (coin : ℕ → Bool) :
    walk_numba 0 coin = [] ∧ walk_numba 1 coin = [0] :=
  ⟨rfl, rfl⟩

/-- C6: every element of walk_numba n, n ≥ 1, lies within
[-n * (1/n), 5e-3], whatever the random draws. -/
theorem walk_bounds (n : ℕ) (coin : ℕ → Bool) (hn : 1 ≤ n) :
    ∀ i, i < n →
      -(n:ℚ) * (1 / n) ≤ (walk_numba n coin).getD i 0 ∧
      (walk_numba n coin).getD i 0 ≤ 5e-3 := by
  intro i hi
  rw [walk_numba_getD coin hi]
  have hb := walkPos_bounds n coin hn i
  have hnpos : (0:ℚ) < n := by exact_mod_cast hn
  constructor
  · have h1 : -(n:ℚ) * (1 / n) = -1 := by field_simp
    have h2 : -(1:ℚ) ≤ -(i:ℚ) / n := by
      rw [neg_div, neg_le_neg_iff, div_le_one hnpos]
      exact_mod_cast hi.le
    linarith [hb.1]
  · exact hb.2

/-- Witness for walk_bounds at n = 1. -/
theorem walk_bounds_witness :
    1 ≤ 1 ∧
      ∀ i, i < 1 →
        -((1:ℕ):ℚ) * (1 / (1:ℕ)) ≤ (walk_numba 1 (fun _ => true)).getD i 0 ∧
        (walk_numba 1 (fun _ => true)).getD i 0 ≤ 5e-3 :=
  ⟨by decide, walk_bounds 1 (fun _ => true) (by decide)⟩

theorem updateGrid_overwrite {α : Type} (m : ℕ → ℕ → α) (i j : ℕ) (v w : α) :
    updateGrid (updateGrid m i j v) i j w = updateGrid m i j w := by
  funext a b
  unfold updateGrid
  split <;> rfl

/-- The escape loop equals its recorded-value summary applied to the grid. -/
theorem mandelLoop_applyRec {α : Type} (check : ℚ × ℚ → Prop) [DecidablePred check]
    (val : ℕ → α) (c : ℚ × ℚ) (i j : ℕ) :
    ∀ (r n : ℕ) (z : ℚ × ℚ) (cur : Option ℕ) (m : ℕ → ℕ → α),
      mandelLoop check val c i j r n z (applyRec m i j val cur) =
        applyRec m i j val (cellVal check c r n z cur) := by
  intro r
  induction r with
  | zero => intro n z cur m; rfl
  | succ r ih =>
    intro n z cur m
    show (if check z then
        mandelLoop check val c i j r (n + 1) (cadd (cmul z z) c)
          (updateGrid (applyRec m i j val cur) i j (val n))
      else applyRec m i j val cur) = _
    by_cases hc : check z
    · rw [if_pos hc]
      have hup : updateGrid (applyRec m i j val cur) i j (val n) =
          applyRec m i j val (some n) := by
        cases cur with
        | none => rfl
        | some v => exact updateGrid_overwrite m i j (val v) (val n)
      rw [hup, ih]
      show _ = applyRec m i j val
        (if check z then cellVal check c r (n + 1) (cadd (cmul z z) c) (some n) else cur)
      rw [if_pos hc]
    · rw [if_neg hc]
      show _ = applyRec m i j val
        (if check z then cellVal check c r (n + 1) (cadd (cmul z z) c) (some n) else cur)
      rw [if_neg hc]

/-- If the escape test passes for all of the remaining r iterations, the loop
records index n + r - 1 (keeping cur when r = 0). -/
theorem cellVal_no_escape (check : ℚ × ℚ → Prop) [DecidablePred check] (c : ℚ × ℚ) :
    ∀ (r n : ℕ) (cur : Option ℕ),
      (∀ t, n ≤ t → t < n + r → check (orbit c t)) →
      cellVal check c r n (orbit c n) cur =
        if r = 0 then cur else some (n + r - 1) := by
  intro r
  induction r with
  | zero => intro n cur _; rfl
  | succ r ih =>
    intro n cur h
    have hn : check (orbit c n) := h n le_rfl (by omega)
    show (if check (orbit c n) then
        cellVal check c r (n + 1) (cadd (cmul (orbit c n) (orbit c n)) c) (some n)
      else cur) = _
    rw [if_pos hn]
    have horb : cadd (cmul (orbit c n) (orbit c n)) c = orbit c (n + 1) := rfl
    rw [horb, ih (n + 1) (some n) (fun t h1 h2 => h t (by omega) (by omega))]
    by_cases hr : r = 0
    · subst hr
      rw [if_pos rfl, if_neg (by omega)]
      congr 1
    · rw [if_neg hr, if_neg (by omega)]
      congr 1
      omega

/-- If the escape test first fails at index T within the remaining iterations,
the loop records T - 1 (keeping cur when the failure is immediate). -/
theorem cellVal_escape (check : ℚ × ℚ → Prop) [DecidablePred check] (c : ℚ × ℚ) :
    ∀ (r n T : ℕ) (cur : Option ℕ),
      n ≤ T → T < n + r →
      (∀ t, n ≤ t → t < T → check (orbit c t)) →
      ¬ check (orbit c T) →
      cellVal check c r n (orbit c n) cur =
        if T = n then cur else some (T - 1) := by
  intro r
  induction r with
  | zero => intro n T cur h1 h2 _ _; omega
  | succ r ih =>
    intro n T cur h1 h2 hall hT
    show (if check (orbit c n) then
        cellVal check c r (n + 1) (cadd (cmul (orbit c n) (orbit c n)) c) (some n)
      else cur) = _
    by_cases hTn : T = n
    · subst hTn
      rw [if_neg hT, if_pos rfl]
    · have hc : check (orbit c n) := hall n le_rfl (by omega)
      rw [if_pos hc]
      have horb : cadd (cmul (orbit c n) (orbit c n)) c = orbit c (n + 1) := rfl
      rw [horb, ih (n + 1) T (some n) (by omega) (by omega)
        (fun t ha hb => hall t (by omega) hb) hT]
      by_cases h : T = n + 1
      · subst h
        rw [if_pos rfl, if_neg hTn]
        congr 1
      · rw [if_neg h, if_neg hTn]

/-- For an escape test satisfied at z = 0 and a positive budget, the recorded
value is the last index N < K before the first failure of the test along the
orbit (K - 1 when the test never fails within the budget). -/
theorem escVal_spec (check : ℚ × ℚ → Prop) [DecidablePred check] (c : ℚ × ℚ)
    (K : ℕ) (hK : 1 ≤ K) (h0 : check (0, 0)) :
    ∃ N : ℕ, escVal check c K = some N ∧ N < K ∧
      (∀ t, t ≤ N → check (orbit c t)) ∧
      (N + 1 = K ∨ ¬ check (orbit c (N + 1))) := by
  unfold escVal
  by_cases hesc : ∃ T, T < K ∧ ¬ check (orbit c T)
  · have hspec := Nat.find_spec hesc
    have hmin : ∀ t, t < Nat.find hesc → ¬(t < K ∧ ¬ check (orbit c t)) :=
      fun t h => Nat.find_min hesc h
    have hT0 : Nat.find hesc ≠ 0 := by
      intro h
      apply hspec.2
      rw [h]
      exact h0
    have hcell : cellVal check c K 0 (0, 0) none =
        if Nat.find hesc = 0 then none else some (Nat.find hesc - 1) :=
      cellVal_escape check c K 0 (Nat.find hesc) none (by omega) (by omega)
        (fun t h1 h2 => by
          have h3 := hmin t h2
          push_neg at h3
          exact h3 (by omega))
        hspec.2
    refine ⟨Nat.find hesc - 1, ?_, by omega, ?_, ?_⟩
    · rw [hcell, if_neg hT0]
    · intro t ht
      have h3 := hmin t (by omega)
      push_neg at h3
      exact h3 (by omega)
    · right
      have he : Nat.find hesc - 1 + 1 = Nat.find hesc := by omega
      rw [he]
      exact hspec.2
  · push_neg at hesc
    have hcell : cellVal check c K 0 (0, 0) none =
        if K = 0 then none else some (0 + K - 1) :=
      cellVal_no_escape check c K 0 none (fun t h1 h2 => hesc t (by omega))
    refine ⟨K - 1, ?_, by omega, ?_, ?_⟩
    · rw [hcell, if_neg (by omega)]
      congr 1
      omega
    · intro t ht
      exact hesc t (by omega)
    · left
      omega

/-- Effect of one cell of the Mandelbrot loops on the grid, pointwise. -/
theorem cellStep_spec {α : Type} (check : ℚ × ℚ → Prop) [DecidablePred check]
    (val : ℕ → α) (c : ℚ × ℚ) (K i j : ℕ) (m : ℕ → ℕ → α) (a b : ℕ) :
    mandelLoop check val c i j K 0 (0, 0) m a b =
      if a = i ∧ b = j then (escVal check c K).elim (m a b) val else m a b := by
  have h := mandelLoop_applyRec check val c i j K 0 (0, 0) none m
  rw [show applyRec m i j val none = m from rfl] at h
  rw [h]
  show applyRec m i j val (escVal check c K) a b = _
  cases hv : escVal check c K with
  | none =>
    show m a b = _
    split <;> rfl
  | some v =>
    show updateGrid m i j (val v) a b = _
    unfold updateGrid
    rfl

/-- Effect of one full row of the column loop, pointwise: entries of row i with
column in js receive their cell value, everything else is untouched. -/
theorem rowFold_spec {α : Type} (check : ℚ × ℚ → Prop) [DecidablePred check]
    (val : ℕ → α) (size K i : ℕ) :
    ∀ (js : List ℕ) (m : ℕ → ℕ → α) (a b : ℕ),
      (js.foldl
        (fun mj j => mandelLoop check val (cGrid size i j) i j K 0 (0, 0) mj) m) a b =
        if a = i ∧ b ∈ js then (escVal check (cGrid size i b) K).elim (m a b) val
        else m a b := by
  intro js
  induction js with
  | nil => intro m a b; simp
  | cons j js ih =>
    intro m a b
    simp only [List.foldl_cons]
    rw [ih, cellStep_spec]
    simp only [List.mem_cons]
    by_cases hai : a = i
    · subst hai
      by_cases hbjs : b ∈ js
      · cases hv : escVal check (cGrid size a b) K with
        | some v => simp [hv, hbjs]
        | none =>
          by_cases hbj : b = j
          · subst hbj
            simp [hv, hbjs]
          · simp [hv, hbjs, hbj]
      · by_cases hbj : b = j
        · subst hbj
          simp [hbjs]
        · simp [hbjs, hbj]
    · simp [hai]

/-- Effect of the outer row loop, pointwise. -/
theorem colFold_spec {α : Type} (check : ℚ × ℚ → Prop) [DecidablePred check]
    (val : ℕ → α) (size K : ℕ) :
    ∀ (is : List ℕ) (m : ℕ → ℕ → α) (a b : ℕ),
      (is.foldl
        (fun mi i => (List.range size).foldl
          (fun mj j => mandelLoop check val (cGrid size i j) i j K 0 (0, 0) mj) mi) m) a b =
        if a ∈ is ∧ b < size then (escVal check (cGrid size a b) K).elim (m a b) val
        else m a b := by
  intro is
  induction is with
  | nil => intro m a b; simp
  | cons i is ih =>
    intro m a b
    simp only [List.foldl_cons]
    rw [ih, rowFold_spec]
    simp only [List.mem_range, List.mem_cons]
    by_cases hbs : b < size
    · by_cases hais : a ∈ is
      · cases hv : escVal check (cGrid size a b) K with
        | some v => simp [hv, hais, hbs]
        | none =>
          by_cases hai : a = i
          · subst hai
            simp [hv, hais, hbs]
          · simp [hv, hais, hbs, hai]
      · by_cases hai : a = i
        · subst hai
          simp [hais, hbs]
        · simp [hais, hbs, hai]
    · simp [hbs]

/-- Pointwise description of both Mandelbrot grid functions: inside the
size-by-size block each entry receives its cell value, outside nothing changes. -/
theorem mandelGrid_spec {α : Type} (check : ℚ × ℚ → Prop) [DecidablePred check]
    (val : ℕ → α) (m : ℕ → ℕ → α) (size K : ℕ) (a b : ℕ) :
    mandelGrid check val m size K a b =
      if a < size ∧ b < size then (escVal check (cGrid size a b) K).elim (m a b) val
      else m a b := by
  unfold mandelGrid
  rw [colFold_spec]
  simp only [List.mem_range]

/-- The radius-10 test of mandelbrot_python and the squared test of the typed
cython kernel agree on every point. -/
theorem pyCheck_iff_cyCheck (z : ℚ × ℚ) : pyCheck z ↔ cyCheck z := by
  unfold pyCheck cyCheck
  rw [Real.sqrt_le_left (by norm_num)]
  rw [show ((10:ℝ)) ^ 2 = ((100 : ℚ) : ℝ) by norm_num]
  rw [show (z.1 : ℝ) ^ 2 + (z.2 : ℝ) ^ 2 = ((z.1 ^ 2 + z.2 ^ 2 : ℚ) : ℝ) by
    push_cast
    ring]
  exact Rat.cast_le

/-- The recorded value only depends on the escape test up to equivalence. -/
theorem cellVal_congr (check1 check2 : ℚ × ℚ → Prop) [DecidablePred check1]
    [DecidablePred check2] (h : ∀ z, check1 z ↔ check2 z) (c : ℚ × ℚ) :
    ∀ (r n : ℕ) (z : ℚ × ℚ) (cur : Option ℕ),
      cellVal check1 c r n z cur = cellVal check2 c r n z cur := by
  intro r
  induction r with
  | zero => intro n z cur; rfl
  | succ r ih =>
    intro n z cur
    show (if check1 z then cellVal check1 c r (n + 1) (cadd (cmul z z) c) (some n) else cur) =
      (if check2 z then cellVal check2 c r (n + 1) (cadd (cmul z z) c) (some n) else cur)
    by_cases hc : check1 z
    · rw [if_pos hc, if_pos ((h z).1 hc), ih]
    · rw [if_neg hc, if_neg (fun h2 => hc ((h z).2 h2))]

theorem escVal_py_cy (c : ℚ × ℚ) (K : ℕ) : escVal pyCheck c K = escVal cyCheck c K :=
  cellVal_congr pyCheck cyCheck pyCheck_iff_cyCheck c K 0 (0, 0) none

/-- The orbit of c = 0 is constantly 0. -/
theorem orbit_zero : ∀ t, orbit (0, 0) t = (0, 0) := by
  intro t
  induction t with
  | zero => rfl
  | succ t ih =>
    show cadd (cmul (orbit (0, 0) t) (orbit (0, 0) t)) (0, 0) = (0, 0)
    rw [ih]
    simp [cadd, cmul]

/-- Pointwise agreement of the two Mandelbrot functions on cast-related grids. -/
theorem mandel_py_eq_cy (m : ℕ → ℕ → ℚ) (mz : ℕ → ℕ → ℤ) (size K : ℕ)
    (hm : ∀ a b, m a b = ((mz a b : ℤ) : ℚ)) (a b : ℕ) :
    mandelbrot_python m size K a b = ((mandelbrot_cython mz size K a b : ℤ) : ℚ) := by
  unfold mandelbrot_python mandelbrot_cython
  rw [mandelGrid_spec, mandelGrid_spec]
  by_cases hab : a < size ∧ b < size
  · rw [if_pos hab, if_pos hab, escVal_py_cy]
    cases hv : escVal cyCheck (cGrid size a b) K with
    | none => simpa using hm a b
    | some v => simp
  · rw [if_neg hab, if_neg hab]
    exact hm a b

/-- C2: for S, K ≥ 1 and every cell (row, col) of the S-by-S block, the
Mandelbrot computation records the last iteration index N in [0, K-1] at which
the orbit z_0 = 0, z_{t+1} = z_t² + c with c = cGrid S row col still satisfies
the bound (squared magnitude at most 100, i.e. radius 10), stopping early once
the bound is exceeded; a cell whose orbit never exceeds the bound ends with the
value K - 1, in particular any cell with c = 0. -/
theorem mandelbrot_escape_time (m : ℕ → ℕ → ℚ) (S K row col : ℕ)
    (_hS : 1 ≤ S) (hK : 1 ≤ K) (hrow : row < S) (hcol : col < S) :
    ∃ N : ℕ, mandelbrot_python m S K row col = (N : ℚ) ∧ N < K ∧
      (∀ t, t ≤ N → cyCheck (orbit (cGrid S row col) t)) ∧
      (N + 1 = K ∨ ¬ cyCheck (orbit (cGrid S row col) (N + 1))) ∧
      (cGrid S row col = (0, 0) → N = K - 1) := by
  obtain ⟨N, hsome, hNK, hall, hend⟩ :=
    escVal_spec cyCheck (cGrid S row col) K hK (by norm_num [cyCheck])
  refine ⟨N, ?_, hNK, hall, hend, ?_⟩
  · unfold mandelbrot_python
    rw [mandelGrid_spec, if_pos ⟨hrow, hcol⟩, escVal_py_cy, hsome]
    rfl
  · intro hc0
    rcases hend with h | h
    · omega
    · exfalso
      rw [hc0, orbit_zero] at h
      exact h (by norm_num [cyCheck])

/-- Witness for mandelbrot_escape_time at S = K = 1, cell (0, 0). -/
theorem mandelbrot_escape_time_witness :
    1 ≤ 1 ∧ 1 ≤ 1 ∧ 0 < 1 ∧ 0 < 1 ∧
      (∃ N : ℕ, mandelbrot_python (fun _ _ => 0) 1 1 0 0 = (N : ℚ) ∧ N < 1 ∧
        (∀ t, t ≤ N → cyCheck (orbit (cGrid 1 0 0) t)) ∧
        (N + 1 = 1 ∨ ¬ cyCheck (orbit (cGrid 1 0 0) (N + 1))) ∧
        (cGrid 1 0 0 = (0, 0) → N = 1 - 1)) :=
  ⟨by decide, by decide, by decide, by decide,
    mandelbrot_escape_time (fun _ _ => 0) 1 1 0 0 (by decide) (by decide)
      (by decide) (by decide)⟩

/-- C9: the Mandelbrot functions mutate only the size-by-size block of the
grid: entries with a row or column index at least size keep their previous
value, and every block entry is written at least once when K ≥ 1 (the first
bound check always passes since z starts at 0), its final value depending only
on (size, K, i, j) and not on the initial grid. -/
theorem mandelbrot_frame (m : ℕ → ℕ → ℚ) (mz : ℕ → ℕ → ℤ) (S K : ℕ)
    (_hS : 1 ≤ S) (hK : 1 ≤ K) :
    (∀ a b, S ≤ a ∨ S ≤ b →
      mandelbrot_python m S K a b = m a b ∧ mandelbrot_cython mz S K a b = mz a b) ∧
    (∀ i j, i < S → j < S → ∃ v : ℕ, v < K ∧
      (∀ m' : ℕ → ℕ → ℚ, mandelbrot_python m' S K i j = (v : ℚ)) ∧
      (∀ mz' : ℕ → ℕ → ℤ, mandelbrot_cython mz' S K i j = (v : ℤ))) := by
  constructor
  · intro a b hab
    constructor
    · unfold mandelbrot_python
      rw [mandelGrid_spec, if_neg (by omega)]
    · unfold mandelbrot_cython
      rw [mandelGrid_spec, if_neg (by omega)]
  · intro i j hi hj
    obtain ⟨N, hsome, hNK, -, -⟩ :=
      escVal_spec cyCheck (cGrid S i j) K hK (by norm_num [cyCheck])
    refine ⟨N, hNK, ?_, ?_⟩
    · intro m'
      unfold mandelbrot_python
      rw [mandelGrid_spec, if_pos ⟨hi, hj⟩, escVal_py_cy, hsome]
      rfl
    · intro mz'
      unfold mandelbrot_cython
      rw [mandelGrid_spec, if_pos ⟨hi, hj⟩, hsome]
      rfl

/-- Witness for mandelbrot_frame at S = K = 1 on concrete grids. -/
theorem mandelbrot_frame_witness :
    1 ≤ 1 ∧ 1 ≤ 1 ∧
      ((∀ a b, 1 ≤ a ∨ 1 ≤ b →
        mandelbrot_python (fun _ _ => 3) 1 1 a b = (fun _ _ => (3:ℚ)) a b ∧
        mandelbrot_cython (fun _ _ => 5) 1 1 a b = (fun _ _ => (5:ℤ)) a b) ∧
      (∀ i j, i < 1 → j < 1 → ∃ v : ℕ, v < 1 ∧
        (∀ m' : ℕ → ℕ → ℚ, mandelbrot_python m' 1 1 i j = (v : ℚ)) ∧
        (∀ mz' : ℕ → ℕ → ℤ, mandelbrot_cython mz' 1 1 i j = (v : ℤ)))) :=
  ⟨by decide, by decide,
    mandelbrot_frame (fun _ _ => 3) (fun _ _ => 5) 1 1 (by decide) (by decide)⟩

/-- C8: the pure-Python and the typed Cython Mandelbrot functions are
equivalent: the escape test np.abs(z) <= 10 of the former and the test
z.real² + z.imag² <= 100 of the latter agree, and on zero-initialised grids
both produce the same table of recorded iteration indices (each float entry
equals the corresponding int entry). -/
theorem mandelbrot_python_cython_equiv (S K : ℕ) (_hS : 1 ≤ S) (_hK : 1 ≤ K) :
    (∀ z : ℚ × ℚ, pyCheck z ↔ cyCheck z) ∧
    ∀ a b, mandelbrot_python (fun _ _ => 0) S K a b =
      ((mandelbrot_cython (fun _ _ => 0) S K a b : ℤ) : ℚ) :=
  ⟨pyCheck_iff_cyCheck, fun a b =>
    mandel_py_eq_cy (fun _ _ => 0) (fun _ _ => 0) S K (fun _ _ => by norm_num) a b⟩

/-- Witness for mandelbrot_python_cython_equiv at S = K = 1. -/
theorem mandelbrot_python_cython_equiv_witness :
    1 ≤ 1 ∧ 1 ≤ 1 ∧
      ((∀ z : ℚ × ℚ, pyCheck z ↔ cyCheck z) ∧
      ∀ a b, mandelbrot_python (fun _ _ => 0) 1 1 a b =
        ((mandelbrot_cython (fun _ _ => 0) 1 1 a b : ℤ) : ℚ)) :=
  ⟨by decide, by decide, mandelbrot_python_cython_equiv 1 1 (by decide) (by decide)⟩

/-- C3 as stated is false on the code: at size 2 and budget 2 the cell (0, 0)
has parameter c = -2 + 1.5i with |c|² = 25/4 > 2², yet its recorded value is 1,
not 0: exceeding radius 2 does not fail the radius-10 bound check immediately. -/
theorem mandelbrot_radius2_counterexample :
    (cGrid 2 0 0).1 ^ 2 + (cGrid 2 0 0).2 ^ 2 > 2 ^ 2 ∧
    1 ≤ 2 ∧
    mandelbrot_cython (fun _ _ => 0) 2 2 0 0 = 1 := by
  refine ⟨by norm_num [cGrid], by norm_num, ?_⟩
  have hall : ∀ t, 0 ≤ t → t < 0 + 2 → cyCheck (orbit (cGrid 2 0 0) t) := by
    intro t _ ht
    interval_cases t
    · norm_num [cyCheck, orbit]
    · show cyCheck (cadd (cmul (0, 0) (0, 0)) (cGrid 2 0 0))
      norm_num [cyCheck, cadd, cmul, cGrid]
  have h2 : cellVal cyCheck (cGrid 2 0 0) 2 0 (0, 0) none =
      if 2 = 0 then none else some (0 + 2 - 1) :=
    cellVal_no_escape cyCheck (cGrid 2 0 0) 2 0 none hall
  have hesc : escVal cyCheck (cGrid 2 0 0) 2 = some 1 := by
    unfold escVal
    rw [h2]
    norm_num
  unfold mandelbrot_cython
  rw [mandelGrid_spec, if_pos (by norm_num), hesc]
  rfl

/-- C3 amended: immediate escape (recorded value 0) occurs exactly beyond the
radius-10 bound actually used by the code, not radius 2: for every parameter c
with |c|² > 100 and budget K ≥ 1 the recorded value is 0 under both escape
tests.  No cell of any grid has such a parameter (grid parameters satisfy
|c|² ≤ 25/4), so no grid cell records 0 this way. -/
theorem mandelbrot_immediate_escape (c : ℚ × ℚ) (K : ℕ) (hK : 1 ≤ K)
    (hc : 100 < c.1 ^ 2 + c.2 ^ 2) :
    escVal cyCheck c K = some 0 ∧ escVal pyCheck c K = some 0 := by
  have hzc : cadd (cmul (0, 0) (0, 0)) c = c := by
    simp [cadd, cmul]
  have hT : ¬ cyCheck (orbit c 1) := by
    show ¬ cyCheck (cadd (cmul (0, 0) (0, 0)) c)
    rw [hzc]
    exact not_le.2 hc
  have h1 : escVal cyCheck c K = some 0 := by
    rcases eq_or_lt_of_le hK with hK1 | hK2
    · have hcell : cellVal cyCheck c 1 0 (0, 0) none =
          if 1 = 0 then none else some (0 + 1 - 1) :=
        cellVal_no_escape cyCheck c 1 0 none
          (fun t ha hb => by
            have ht0 : t = 0 := by omega
            subst ht0
            norm_num [cyCheck, orbit])
      unfold escVal
      rw [← hK1, hcell]
      norm_num
    · have hcell : cellVal cyCheck c K 0 (0, 0) none =
          if 1 = 0 then none else some (1 - 1) :=
        cellVal_escape cyCheck c K 0 1 none (by omega) (by omega)
          (fun t ha hb => by
            have ht0 : t = 0 := by omega
            subst ht0
            norm_num [cyCheck, orbit])
          hT
      unfold escVal
      rw [hcell]
      norm_num
  exact ⟨h1, by rw [escVal_py_cy]; exact h1⟩

/-- Witness for mandelbrot_immediate_escape at c = 11 (real axis), K = 1. -/
theorem mandelbrot_immediate_escape_witness :
    1 ≤ 1 ∧ (100 : ℚ) < ((11 : ℚ), (0 : ℚ)).1 ^ 2 + ((11 : ℚ), (0 : ℚ)).2 ^ 2 ∧
      (escVal cyCheck (11, 0) 1 = some 0 ∧ escVal pyCheck (11, 0) 1 = some 0) :=
  ⟨by decide, by norm_num, mandelbrot_immediate_escape (11, 0) 1 (by decide) (by norm_num)⟩
